import Mathlib

/-!
Shallow embedding of the core of the `paint_atmospheres` repository:

* `src/limbdark/fit.py` — the shared mu-interval partition state of class `Fit`
  (`set_muB`, the design matrix `x`, the per-interval function table `F`,
  the intensity duplication of `Fit.__init__`, and the batched `Fit.integrate`);
* `src/pa/lib/surface.py` — the Roche surface geometry (`S`, `R`, `ab`, `Z1`,
  `transit_locations`);
* `src/star/star.py` — the disk integrator; that file is syntactically broken
  (line 65 places a keyword argument outside any call), so no executable
  semantics can be given for `Star.integrate` (claim C7).

Python floats are modelled as exact numbers: the partition bookkeeping of
`fit.py` is purely order/index arithmetic on the exact decimal grid values, so
it is embedded over `ℚ`; the surface geometry is genuine real analysis and is
embedded over `ℝ`.
-/

namespace Fit

/-- The values of mu in Castelli and Kurucz 2004 (`fit.py`, `mu_arr`), as exact
rationals.  The floating point literals of the source are exact decimals. -/
def mu_arr : List ℚ :=
  [mkRat 1 100, mkRat 1 40, mkRat 1 20, mkRat 3 40, mkRat 1 10, mkRat 1 8,
   mkRat 3 20, mkRat 1 5, mkRat 1 4, mkRat 3 10, mkRat 2 5, mkRat 1 2,
   mkRat 3 5, mkRat 7 10, mkRat 4 5, mkRat 9 10, 1]

/-- `np.searchsorted(xs, v)` (side `left`) for the sorted grid `xs`: the number
of elements strictly below `v`.  `fit.py` only searchsorts the sorted `mu_arr`
and `muB_arr`, for which numpy's binary search returns exactly this count. -/
def ssLeft (xs : List ℚ) (v : ℚ) : ℕ :=
  xs.countP (fun μ => decide (μ < v))

/-- `np.searchsorted(xs, v, side='right')` for a sorted list: the number of
elements at or below `v`. -/
def ssRight (xs : List ℚ) (v : ℚ) : ℕ :=
  xs.countP (fun μ => decide (μ ≤ v))

/-- The python slice `arr[i:j]` (for nonnegative `i`, `j`; out-of-range and
crossed indices clamp to the empty list, as in python). -/
def pySlice (arr : List ℚ) (i j : ℕ) : List ℚ :=
  (arr.take j).drop i

/-- `np.split(arr, is)` relative to a running previous index `prev`:
`npSplit arr [i₁, …, i_k] 0 = [arr[0:i₁], arr[i₁:i₂], …, arr[i_k:]]`.
numpy accepts non-monotone index lists and produces (possibly empty) clamped
slices, exactly as `pySlice` does. -/
def npSplit (arr : List ℚ) : List ℕ → ℕ → List (List ℚ)
  | [], prev => [arr.drop prev]
  | i :: rest, prev => pySlice arr prev i :: npSplit arr rest i

/-- The mu split segments produced by `set_muB` for interior boundaries `b`,
before boundary duplication: `np.split(mu_arr, np.searchsorted(mu_arr, b))`. -/
def origSegs (b : List ℚ) : List (List ℚ) :=
  npSplit mu_arr (b.map (ssLeft mu_arr)) 0

/-- The boundary-duplication loop of `set_muB` (lines 61–62):
`for i in range(m-1): split[i] = append(split[i], split[i+1][0])`.
Reading `split[i+1][0]` of an empty segment raises an uncaught `IndexError` in
the source; that exceptional exit is the `.error` case.  Each read happens
before the next iteration modifies `split[i+1]`, hence the recursion reads the
head of the still-unmodified next segment. -/
def dupSegs : List (List ℚ) → Except Unit (List (List ℚ))
  | [] => .ok []
  | [last] => .ok [last]
  | s :: t :: rest =>
    match t.head? with
    | none => .error ()
    | some h => (dupSegs (t :: rest)).map (fun r => (s ++ [h]) :: r)

/-- The non-zero fit functions on an interval (`fit.py`, `f`):
`1, x, x², x³, x⁴`. -/
def fBasis : List (ℚ → ℚ) :=
  [fun _ => 1, fun x => x, fun x => x ^ 2, fun x => x ^ 3, fun x => x ^ 4]

/-- The function table entry appended for interval `i` of an `m`-interval
configuration (`fit.py` line 65): `fz * i + f + fz * (m - i - 1)`, where `fz`
is a list of `5` zero functions. -/
def Fentry (m i : ℕ) : List (ℚ → ℚ) :=
  List.replicate (5 * i) (fun _ => 0) ++ fBasis ++
    List.replicate (5 * (m - i - 1)) (fun _ => 0)

/-- The class-level partition state of `Fit` (`fit.py` lines 33–44). -/
structure State where
  muB_arr : List ℚ
  m : ℕ
  mu_arr_split : List (List ℚ)
  F : List (List (ℚ → ℚ))
  x : List (List ℚ)

/-- The pristine class state (`fit.py` lines 34–44): empty boundary array,
zero intervals, empty function table and model. -/
def initState : State :=
  { muB_arr := [], m := 0, mu_arr_split := [], F := [], x := [] }

/-- `Fit.set_muB(b)` (`fit.py` lines 49–75), acting on the previous class
state `st`.  Faithful points: the function table `F` is only ever appended to
(`cls.F.append(...)` on the class attribute — it is never reset), and the
design matrix `x` is rebuilt from the first `m` entries of the grown table.
The `.error` case is the uncaught `IndexError` of the duplication loop. -/
def set_muB (st : State) (b : List ℚ) : Except Unit State :=
  let m := b.length + 1
  (dupSegs (origSegs b)).map (fun sp =>
    let F := st.F ++ (List.range m).map (fun i => Fentry m i)
    let x := ((List.range m).map (fun i =>
      (sp.getD i []).map (fun μ => (F.getD i []).map (fun g => g μ)))).flatten
    { muB_arr := 0 :: b, m := m, mu_arr_split := sp, F := F, x := x })

/-- One step of the intensity-duplication loop of `Fit.__init__` (`fit.py`
lines 87–92): subtract `sub` from the running index `ind` and insert a copy of
the element at `ind`.  Subtraction is on `ℕ`; for every state produced by a
successful `set_muB` the source's `ind` never goes negative, so truncation
never fires there. -/
def insStep (acc : List ℚ × ℕ) (sub : ℕ) : List ℚ × ℕ :=
  let ind := acc.2 - sub
  (acc.1.insertIdx ind (acc.1.getD ind 0), ind)

/-- The whole duplication loop of `Fit.__init__`: the elements subtracted from
`ind` are `len(mu_arr_split[i+1]) - 1` for `i` in `reversed(range(m-1))`. -/
def dupIntensity (st : State) (I_arr : List ℚ) : List ℚ :=
  let subs := (List.range (st.m - 1)).reverse.map
    (fun i => (st.mu_arr_split.getD (i + 1) []).length - 1)
  (subs.foldl insStep (I_arr, I_arr.length - 1)).1

-- The predicates below compare real numbers; decidability is classical.
open Classical

/-- `phi` in terms of `mu` (`fit.py` lines 118–120): `arccos((mu - b) / a)`. -/
noncomputable def phiOf (a b μ : ℝ) : ℝ :=
  Real.arccos ((μ - b) / a)

/-- The indefinite integrals of the five non-zero fit functions, composed with
`mu(phi) = a cos(phi) + b`, as functions of `phi` (`fit.py` lines 124–147,
`intgrt`).  A verbatim transcription of the five closed-form antiderivatives
of the source. -/
noncomputable def intgrtF (a b φ : ℝ) : Fin 5 → ℝ :=
  fun k =>
    let cosn := Real.cos φ
    let cos2 := Real.cos (2 * φ)
    let sine := Real.sin φ
    let sin2 := Real.sin (2 * φ)
    let sin3 := Real.sin (3 * φ)
    let sin4 := Real.sin (4 * φ)
    let sin5 := Real.sin (5 * φ)
    match k with
    | 0 => b * φ + a * sine
    | 1 => (a ^ 2 / 2 + b ^ 2) * φ + (2 * a * b + (a ^ 2 * cosn) / 2) * sine
    | 2 => ((3 * a ^ 2 * b) / 2 + b ^ 3) * φ +
        ((5 * a ^ 3) / 6 + 3 * a * b ^ 2 + (3 * a ^ 2 * b * cosn) / 2 +
          (a ^ 3 * cos2) / 6) * sine
    | 3 => ((3 * a ^ 4) / 8 + 3 * a ^ 2 * b ^ 2 + b ^ 4) * φ +
        (3 * a ^ 3 * b + 4 * a * b ^ 3) * sine +
        (a ^ 4 / 4 + (3 * a ^ 2 * b ^ 2) / 2) * sin2 +
        (a ^ 3 * b * sin3) / 3 + (a ^ 4 * sin4) / 32
    | 4 => ((15 * a ^ 4 * b) / 8 + 5 * a ^ 2 * b ^ 3 + b ^ 5) * φ +
        ((5 * a ^ 5) / 8 + (15 * a ^ 3 * b ^ 2) / 2 + 5 * a * b ^ 4) * sine +
        ((5 * a ^ 4 * b) / 4 + (5 * a ^ 2 * b ^ 3) / 2) * sin2 +
        (5 * a ^ 5 * sin3) / 48 + (5 * a ^ 3 * b ^ 2 * sin3) / 6 +
        (5 * a ^ 4 * b * sin4) / 32 + (a ^ 5 * sin5) / 80

/-- `np.searchsorted(xs, v, side='right')` over the real boundary array. -/
noncomputable def ssRightReal (xs : List ℝ) (v : ℝ) : ℕ :=
  xs.countP (fun μ => decide (μ ≤ v))

/-- The interval-descent loop of `Fit.integrate` (`fit.py` lines 176–197) for
one retained column: starting at interval `i` with current angle `ph`, while
the lower endpoint `muB[i]` of the current interval exceeds the lower
integration bound `mu0`, add `intgrt(phi(muB[i])) - intgrt(ph)` to row `i`,
move to `phi(muB[i])` and descend one interval.  The value returned is the
final `(i, ph)` together with the accumulated rows.  (When `mu0 < 0` the
source decrements `i` past `0` and wraps around the numpy array; the loop
below instead stops at interval `0`, which agrees with the source whenever
`mu0 ≥ 0`, i.e. for every physically meaningful call.) -/
noncomputable def intLoop (muB : List ℝ) (a b mu0 : ℝ) :
    ℕ → ℝ → ℕ × ℝ × (ℕ → Fin 5 → ℝ)
  | 0, ph => (0, ph, fun _ _ => 0)
  | i + 1, ph =>
    if muB.getD (i + 1) 0 > mu0 then
      let phi2 := phiOf a b (muB.getD (i + 1) 0)
      let r := intLoop muB a b mu0 i phi2
      (r.1, r.2.1, fun j k =>
        r.2.2 j k + if j = i + 1 then intgrtF a b phi2 k - intgrtF a b ph k else 0)
    else (i + 1, ph, fun _ _ => 0)

/-- The value `Fit.integrate` computes for one retained column (one pair
`(a, b)` with `a ≠ 0`), rows indexed by interval and by fit function
(`fit.py` lines 160–199, specialised to a batch of size one): the scalar
rendering of `mu1 = a + b`, the initial interval
`i = searchsorted(muB_arr, mu1, side='right') - 1`, the lower bound
`mu0 = 0` (when `belowZ1`) or `b - a`, the final angle
`phi_mu0 = phi(0)` or `pi`, the interval-descent loop, the closing addition
`result[i] += intgrt(phi_mu0) - intgrt(ph)` of line 199, and the doubling of
line 207.  (When `mu1 < 0` the source's `searchsorted - 1` yields the index
`-1`, which wraps around the numpy array; the `ℕ` subtraction below clamps to
interval `0` instead — physically meaningful calls have `mu1 = a + b ≥ 0`.) -/
noncomputable def integrateScalar (muB : List ℝ) (belowZ1 : Bool) (a b : ℝ) :
    ℕ → Fin 5 → ℝ :=
  let mu1 := a + b
  let i0 := ssRightReal muB mu1 - 1
  let mu0 := if belowZ1 then 0 else b - a
  let phi_mu0 := if belowZ1 then phiOf a b 0 else Real.pi
  let r := intLoop muB a b mu0 i0 0
  fun j k =>
    2 * (r.2.2 j k + if j = r.1 then intgrtF a b phi_mu0 k - intgrtF a b r.2.1 k else 0)

/-- `Fit.integrate(belowZ1, a, b)` (`fit.py` lines 115–207) on a batch of `N`
input columns.  Lines 152–159 allocate `result` with last axis `N`, then slice
it to the `K = #{j | a_j ≠ 0}` columns with `a ≠ 0` (`result[:, :, ~azero]`)
and shrink `a`, `b`, `belowZ1` accordingly; the comment of line 156 promises
that the removed columns "will be reinserted later".  The reinsertion line 205,

  `result[i, :, azero] += intgrt(math.pi) - intgrt(0)`,

instead raises for every nonempty batch:

* if `K < N` (some `a = 0`): the boolean index `azero` still has length `N`
  but indexes axis 2 of the sliced `result`, whose length is `K` — numpy
  requires a boolean index to match its axis exactly, so this is an
  `IndexError`;
* if `K = N ≥ 2` (no `a = 0`): `azero` converts to an empty integer index of
  shape `(0,)`, which must broadcast against the interval-index array `i` of
  shape `(N,)`; shapes `(N,)` and `(0,)` are not broadcast-compatible for
  `N ≥ 2` — `IndexError`;
* if `K = N = 1`: the two index arrays broadcast to shape `(0,)` and the
  selected subspace has shape `(0, 5)`, but the right-hand side
  `intgrt(math.pi) - intgrt(0)` is built from the shape-`(1,)` arrays `a`, `b`
  and has shape `(5, 1)`, which does not broadcast to `(0, 5)` — `ValueError`.

Hence only the empty batch reaches `return 2 * result`; every nonempty batch,
`a = 0` or not, exits with an uncaught exception, modelled as `.error`.  The
per-column values that the loop accumulates before the exception are those of
`integrateScalar`. -/
noncomputable def integrate (muB : List ℝ) (belowZ1 : List Bool) (a b : List ℝ) :
    Except Unit (List (ℕ → Fin 5 → ℝ)) :=
  let kept := (belowZ1.zip (a.zip b)).filter (fun t => decide (t.2.1 ≠ 0))
  let result := kept.map (fun t => integrateScalar muB t.1 t.2.1 t.2.2)
  if a.isEmpty then .ok result else .error ()

end Fit

/-- The state of a `pa/lib/surface.py` `Surface` after `__init__(omega)` and
`set_inclination(inclination)`.  The derived attributes of the source
(`w`, `f` from `__init__`; `sini`, `cosi`, `z1` from `set_inclination`) are
modelled as functions of the two primitive fields below; `set_inclination`
is the record update, and the cached bound `z1` is the function `Surface.Z1`
evaluated at the current state, exactly as line 27 assigns it. -/
structure Surface where
  omega : ℝ
  inclination : ℝ

namespace Surface

open Classical

/-- `self.w` (lines 16–19).  For `omega ≠ 0`, `w = 1 + 2/omega²`; for
`omega = 0` the source stores `np.inf` and every later use of `w` is guarded
by `np.isinf(w)`, which holds iff `omega = 0`; those guards are modelled as
tests on `omega` and this function is only reached with `omega ≠ 0`. -/
noncomputable def w (s : Surface) : ℝ :=
  if s.omega = 0 then 0 else 1 + 2 / s.omega ^ 2

/-- `self.f = 1 + omega²/2` (line 20), the flatness. -/
noncomputable def f (s : Surface) : ℝ :=
  1 + s.omega ^ 2 / 2

/-- `self.sini` (line 25). -/
noncomputable def sini (s : Surface) : ℝ :=
  Real.sin s.inclination

/-- `self.cosi` (line 26). -/
noncomputable def cosi (s : Surface) : ℝ :=
  Real.cos s.inclination

/-- `U(z) = z / f` (lines 30–31). -/
noncomputable def U (s : Surface) (z : ℝ) : ℝ :=
  z / s.f

/-- `Z(u) = u * f` (lines 32–33). -/
noncomputable def Z (s : Surface) (u : ℝ) : ℝ :=
  u * s.f

/-- `T(u)` (lines 36–40), the arccos argument of the trigonometric cubic-root
formula. -/
noncomputable def T (s : Surface) (u : ℝ) : ℝ :=
  let w := s.w
  Real.arccos ((27 - 2 * u ^ 6 - 54 * w - 6 * u ^ 4 * w + 27 * w ^ 2 -
    6 * u ^ 2 * w ^ 2 - 2 * w ^ 3) / (2 * (u ^ 2 + w) ^ 3))

/-- `V(u) = cos((1/3)(2π + T(u)))` (lines 41–42). -/
noncomputable def V (s : Surface) (u : ℝ) : ℝ :=
  Real.cos ((1 / 3) * (2 * Real.pi + s.T u))

/-- `S(u)` (lines 44–49): `1 - u²` for the spherical star (`isinf(w)`, i.e.
`omega = 0`), else the trigonometric real root of the Roche cubic. -/
noncomputable def S (s : Surface) (u : ℝ) : ℝ :=
  if s.omega = 0 then 1 - u ^ 2
  else (1 / 3) * (2 * s.w - u ^ 2 + 2 * (u ^ 2 + s.w) * s.V u)

/-- `Ds(u)` (lines 51–56), the derivative of `S`. -/
noncomputable def Ds (s : Surface) (u : ℝ) : ℝ :=
  if s.omega = 0 then -2 * u
  else 2 * u * (1 - 2 * s.V u) / (3 + 6 * s.V u)

/-- `R(z)` (lines 59–70): `sqrt(S(U(z)))`, with `S` clamped to exactly `0`
at `|z| = 1` before the square root (the source's floating-point guard). -/
noncomputable def R (s : Surface) (z : ℝ) : ℝ :=
  Real.sqrt (if |z| = 1 then 0 else s.S (s.U z))

/-- `Drz(z) = Ds(U(z)) / (2 f R(z))` (lines 72–75). -/
noncomputable def Drz (s : Surface) (z : ℝ) : ℝ :=
  s.Ds (s.U z) / (2 * s.f * s.R z)

/-- `A(z)` (lines 81–82), the differential area element. -/
noncomputable def A (s : Surface) (z : ℝ) : ℝ :=
  (1 / s.f) * Real.sqrt (s.S (s.U z) + s.Ds (s.U z) ^ 2 / 4)

/-- `ab(z)` (lines 85–90): the coefficients of `mu = a cos(phi) + b`. -/
noncomputable def ab (s : Surface) (z : ℝ) : ℝ × ℝ :=
  let drz := s.f * s.Drz z
  let sqt := Real.sqrt (1 + drz ^ 2)
  (s.sini / sqt, -(s.cosi * drz) / sqt)

/-- Evaluation of a numpy-style coefficient list (leading coefficient first)
at `x`, by Horner's rule. -/
noncomputable def polyvalNP (cs : List ℝ) (x : ℝ) : ℝ :=
  cs.foldl (fun acc c => acc * x + c) 0

/-- `Z1()` (lines 126–156): the integration bound on `z`.  `sini` for the
spherical star (`isinf(w)`, i.e. `omega = 0`), `0` for pole-on inclination,
and otherwise obtained from a root in `[0, 1]` of the degree-7 polynomial of
lines 138–147 (the source extracts, with `np.roots(p)` and
`np.extract(condition, rts)[0]`, a root of `p` lying in `[0, 1]` in numpy's
unspecified enumeration order; this choice of a root satisfying the same
predicate is modelled by `Classical.epsilon`), mapped through the closed-form
`u(s)` of line 154 and `Z` of line 156. -/
noncomputable def Z1 (s : Surface) : ℝ :=
  if s.omega = 0 then s.sini
  else if s.sini = 0 then 0
  else
    let w := s.w
    let Tsq := (s.sini / s.cosi) ^ 2
    let p : List ℝ := [
      -1 - Tsq,
      6 * (1 + Tsq) * w,
      -15 * (1 + Tsq) * w ^ 2,
      1 - 2 * w + w ^ 2 + 20 * w ^ 3 + 4 * Tsq * (-1 + 2 * w - w ^ 2 + 5 * w ^ 3),
      -(w * (4 - 8 * w + 4 * w ^ 2 + 15 * w ^ 3 +
        3 * Tsq * (-4 + 8 * w - 4 * w ^ 2 + 5 * w ^ 3))),
      6 * w ^ 2 * (1 - 2 * w + w ^ 2 + w ^ 3 + Tsq * (-2 + 4 * w - 2 * w ^ 2 + w ^ 3)),
      -(Tsq * (-2 + 4 * w - 2 * w ^ 2 + w ^ 3) ^ 2) - w ^ 3 * (4 - 8 * w + 4 * w ^ 2 + w ^ 3),
      (-1 + w) ^ 2 * w ^ 4]
    let sr := Classical.epsilon (fun r : ℝ => polyvalNP p r = 0 ∧ 0 ≤ r ∧ r ≤ 1)
    let u := Real.sqrt (-(((-1 + sr) * (sr + sr ^ 2 + (-1 + w) ^ 2 - 2 * sr * w)) /
      (sr - w) ^ 2))
    s.Z u

/-- `self.z1`, the cached integration bound assigned by `set_inclination`
(line 27). -/
noncomputable def z1 (s : Surface) : ℝ :=
  s.Z1

end Surface

namespace Surface

/-- The coefficients of the 6th-degree polynomial in `u` of
`transit_locations` (lines 182–213), leading coefficient first, for one
sightline `(up, y)`.  `o2 = omega²`, `o4 = omega⁴`, `se = 1/cosi`,
`t = tan(inclination)` as in lines 183–186 (the source also computes
`c2 = cos(2i)` and `c4 = cos(4i)`, which no coefficient uses). -/
noncomputable def p6coeffs (s : Surface) (up y : ℝ) : List ℝ :=
  let o2 := s.omega ^ 2
  let o4 := s.omega ^ 4
  let se := 1 / s.cosi
  let t := Real.tan s.inclination
  [ (o4 * t ^ 4 * (1 + t ^ 2)) / 4,
    -(o4 * se * t ^ 3 * (2 + 3 * t ^ 2) * up) / 2,
    (t ^ 2 * (-2 * o4 - 2 * o4 * t ^ 2 - 4 * o2 * (1 + t ^ 2))) / 4 +
      (t ^ 2 * (6 * o4 * se ^ 2 + 15 * o4 * se ^ 2 * t ^ 2) * up ^ 2) / 4 +
      (t ^ 2 * (2 * o4 + 3 * o4 * t ^ 2) * y ^ 2) / 4,
    se * t * (-(o4 * se ^ 2) - 5 * o4 * se ^ 2 * t ^ 2) * up ^ 3 +
      up * (se * t * (o4 + 2 * o4 * t ^ 2 + o2 * (2 + 4 * t ^ 2)) +
        se * t * (-o4 - 3 * o4 * t ^ 2) * y ^ 2),
    1 + o2 + o4 / 4 + t ^ 2 + o2 * t ^ 2 + (o4 * t ^ 2) / 4 +
      ((o4 * se ^ 4) / 4 + (15 * o4 * se ^ 4 * t ^ 2) / 4) * up ^ 4 +
      (-o2 - o4 / 2 - 2 * o2 * t ^ 2 - o4 * t ^ 2) * y ^ 2 +
      (o4 / 4 + (3 * o4 * t ^ 2) / 4) * y ^ 4 +
      up ^ 2 * (-(o2 * se ^ 2) - (o4 * se ^ 2) / 2 - 6 * o2 * se ^ 2 * t ^ 2 -
        3 * o4 * se ^ 2 * t ^ 2 + ((o4 * se ^ 2) / 2 + (9 * o4 * se ^ 2 * t ^ 2) / 2) * y ^ 2),
    (-3 * o4 * se ^ 5 * t * up ^ 5) / 2 +
      up ^ 3 * (-(se * (-8 * o2 * se ^ 2 - 4 * o4 * se ^ 2) * t) / 2 -
        3 * o4 * se ^ 3 * t * y ^ 2) +
      up * (-((4 + 4 * o2 + o4) * se * t) / 2 -
        ((-8 * o2 - 4 * o4) * se * t * y ^ 2) / 2 - (3 * o4 * se * t * y ^ 4) / 2),
    -1 + (o4 * se ^ 6 * up ^ 6) / 4 + ((4 + 4 * o2 + o4) * y ^ 2) / 4 +
      ((-4 * o2 - 2 * o4) * y ^ 4) / 4 + (o4 * y ^ 6) / 4 +
      up ^ 4 * ((-4 * o2 * se ^ 4 - 2 * o4 * se ^ 4) / 4 + (3 * o4 * se ^ 4 * y ^ 2) / 4) +
      up ^ 2 * ((4 * se ^ 2 + 4 * o2 * se ^ 2 + o4 * se ^ 2) / 4 +
        ((-8 * o2 * se ^ 2 - 4 * o4 * se ^ 2) * y ^ 2) / 4 + (3 * o4 * se ^ 2 * y ^ 4) / 4) ]

/-- The polynomial over `ℂ` with the given real coefficients, leading
coefficient first, in numpy's `np.roots` convention.  (`np.roots` strips
leading zero coefficients and returns the complex roots of the remaining
polynomial, with multiplicity, as eigenvalues of its companion matrix; as a
polynomial this is the same object, so its root multiset is
`Polynomial.roots` over `ℂ`, which is empty for the zero polynomial just as
`np.roots` returns an empty array for an all-zero coefficient list.) -/
noncomputable def polyOfCoeffs (cs : List ℝ) : Polynomial ℂ :=
  (cs.enum.map (fun q => Polynomial.C (q.2 : ℂ) * Polynomial.X ^ (cs.length - 1 - q.1))).sum

/-- The real parts of the roots retained by line 218 of the source,

  `condition = ((-1/self.f <= rts) & (rts <= 1/self.f) & np.isreal(rts))`,

for one sightline.  numpy orders complex numbers lexicographically (real
part, then imaginary part); conjoined with `np.isreal` (imaginary part
exactly zero) the condition is equivalent to
`im = 0 ∧ -1/f ≤ re ∧ re ≤ 1/f`, which is the filter used here. -/
noncomputable def transitRoots (s : Surface) (up y : ℝ) : Multiset ℝ :=
  ((polyOfCoeffs (p6coeffs s up y)).roots.filter
    (fun r => r.im = 0 ∧ -(1 / s.f) ≤ r.re ∧ r.re ≤ 1 / s.f)).map Complex.re

/-- The body of the sightline loop of `transit_locations` (lines 190–228) for
one sightline in the general-inclination branch: if exactly two retained real
roots exist (`u.size == 2`), the larger one (`np.max(u)`), else the NaN that
`u_arr` was initialised with, modelled as `none`. -/
noncomputable def transitPoint (s : Surface) (up y : ℝ) : Option ℝ :=
  let u := transitRoots s up y
  if Multiset.card u = 2 then some (u.toList.maximum.unbot' 0) else none

/-- `transit_locations(up_arr, y_arr)` (lines 164–229).  For inclination
`pi/2` (lines 168–179) the source computes `z = Z(up)`, keeps the positions
with `|z| <= z1` (`mask1`), of those keeps the positions with
`|y| <= R(z)` (`mask2`), and scatters `up` back into those positions of the
NaN-initialised output: the composed fancy index
`np.nonzero(mask1)[0][mask2]` is exactly the filter-of-filter of positions
below.  For any other inclination (lines 180–228) the loop is per-sightline,
`transitPoint`.  (Both branches are elementwise over the two equal-length
input arrays; `zip` truncates to the shorter length, which numpy would
instead reject.) -/
noncomputable def transit_locations (s : Surface) (up_arr y_arr : List ℝ) :
    List (Option ℝ) :=
  if s.inclination = Real.pi / 2 then
    let z_arr := up_arr.map s.Z
    let n := up_arr.length
    let pos1 := (List.range n).filter (fun i => decide (|z_arr.getD i 0| ≤ s.z1))
    let sel := pos1.filter (fun i => decide (|y_arr.getD i 0| ≤ s.R (z_arr.getD i 0)))
    (List.range n).map (fun i => if i ∈ sel then some (up_arr.getD i 0) else none)
  else
    List.zipWith (fun up y => transitPoint s up y) up_arr y_arr

end Surface

/-- C1 (counterexample): the claim states that `Fit.integrate` returns, for
each basis function on each mu interval, twice the definite phi-integral of
the basis function composed with `mu(phi) = a cos(phi) + b`, and in
particular that for `a = 0` the constant-basis entry is exactly `2π`.  At the
input `belowZ1 = [False]`, `a = [0]`, `b = [1/2]` (bounds `[0.5]`) the code
returns nothing at all: the `a = 0` column is removed at line 156 and the
reinsertion line 205 raises an `IndexError` (its boolean index has length 1
against the now length-0 last axis), so no `2π` entry is ever produced. -/
theorem fit_integrate_pole_on_raises :
    Fit.integrate [0, 1 / 2] [false] [0] [1 / 2] = .error () := by
  simp [Fit.integrate]

/-- C2: the claim states that `Fit.integrate` is batched: for input arrays of
common length `N` it returns an `(m, 5, N)`-shaped result, with `a = 0` pairs
placed back at their original positions.  Evaluating the code at the batch
`belowZ1 = [False, False]`, `a = b = [0.3, 0.3]` (bounds `[0.5]`): the
reinsertion line 205 broadcasts the interval-index array of shape `(2,)`
against an empty integer index of shape `(0,)` and raises an `IndexError`;
no nonempty batch ever returns. -/
theorem fit_integrate_batch_raises :
    Fit.integrate [0, 1 / 2] [false, false] [3 / 10, 3 / 10] [3 / 10, 3 / 10] =
      .error () := by
  simp [Fit.integrate]

/-- C4: the claim states that after any sequence of `set_muB` calls the table
`F` has exactly `m` entries, one per interval of the current partition.
Evaluating the code on the call sequence `set_muB([0.5])` then
`set_muB([0.25, 0.5])`: `F` is a class attribute that is only appended to and
never reset, so after the second call it has `2 + 3 = 5` entries while
`m = 3`; the design matrix `x` built from `F[0], F[1], F[2]` then mixes row
widths — only `6` of its `19` rows have the width `5·m = 15` of the current
partition (the other `13` have width `10`, from the stale two-interval
entries). -/
theorem set_muB_accumulates_F :
    ((Fit.set_muB Fit.initState [mkRat 1 2]).bind
        (fun st => Fit.set_muB st [mkRat 1 4, mkRat 1 2])).toOption.map
      (fun st => (st.F.length, st.m, st.x.length,
        st.x.countP (fun r => r.length == 5 * st.m))) = some (5, 3, 19, 6) := by
  decide

/-- C5 (counterexample): the claim states that `set_muB` fails fatally
whenever fewer than 2 reference mu samples fall in some interval.  For the
strictly increasing boundary list `[0.001] ⊆ (0, 1)` the interval
`[0, 0.001)` contains no reference sample at all, yet `set_muB` completes
without error: the source performs no sample-count validation. -/
theorem set_muB_accepts_underdetermined :
    (Fit.set_muB Fit.initState [mkRat 1 1000]).isOk = true ∧
      Fit.mu_arr.countP (fun μ => decide (0 ≤ μ ∧ μ < mkRat 1 1000)) = 0 := by
  decide

/-- C6 (counterexample): the claim states that a reference sample is
duplicated into two neighboring interval blocks exactly when its mu value
falls exactly on an interior boundary.  With the off-grid boundary `0.45`,
the grid sample `0.5` — which does not equal the boundary — appears in both
the first and the second split segment (total multiplicity 2 across the
segments), because line 62 always duplicates the first sample at or above
each boundary, on-boundary or not. -/
theorem boundary_duplication_off_grid :
    (Fit.set_muB Fit.initState [mkRat 9 20]).toOption.map
        (fun st => (st.mu_arr_split.map (fun seg => seg.count (mkRat 1 2))).sum) =
      some 2 ∧ mkRat 1 2 ∈ Fit.mu_arr ∧ mkRat 1 2 ∉ [mkRat 9 20] := by
  decide

/-- C3: for rotation parameter `ω = 0`, `Surface.R(z) = sqrt(1 - z²)` for
every `z ∈ [-1, 1]`, and after `set_inclination(i)` the cached bound `z1`
equals `sin(i)` for every inclination `i ∈ [0, π/2]`. -/
theorem spherical_radius_and_bound (i z : ℝ) (hz1 : -1 ≤ z) (hz2 : z ≤ 1)
    (hi1 : 0 ≤ i) (hi2 : i ≤ Real.pi / 2) :
    (Surface.mk 0 i).R z = Real.sqrt (1 - z ^ 2) ∧
      (Surface.mk 0 i).z1 = Real.sin i := by
  constructor
  · simp only [Surface.R, Surface.S, Surface.U, Surface.f]
    norm_num
    split_ifs with h
    · have hzsq : z ^ 2 = 1 := by
        have hs := sq_abs z
        rw [h] at hs
        nlinarith [hs]
      rw [show (1 : ℝ) - z ^ 2 = 0 from by rw [hzsq]; ring]
    · rfl
  · simp [Surface.z1, Surface.Z1, Surface.sini]

/-- Witness for C3 at `i = π/3`, `z = 1/2`. -/
theorem spherical_radius_and_bound_check :
    (0 : ℝ) ≤ Real.pi / 3 ∧
      (Surface.mk 0 (Real.pi / 3)).R (1 / 2) = Real.sqrt (1 - (1 / 2) ^ 2) ∧
      (Surface.mk 0 (Real.pi / 3)).z1 = Real.sin (Real.pi / 3) := by
  have h := spherical_radius_and_bound (Real.pi / 3) (1 / 2) (by norm_num)
    (by norm_num) (by positivity) (by linarith [Real.pi_pos])
  exact ⟨by positivity, h.1, h.2⟩

/-- C9: for every rotation parameter `ω ≥ 0`, every inclination in
`[0, π/2]`, and every height `z ∈ (-1, 1)` with positive radius, the pair
`(a, b)` returned by `Surface.ab(z)` satisfies `a ≥ 0` and `a² + b² ≤ 1`;
moreover `mu = a cos(phi) + b ∈ [-1, 1]` for every `phi`, and the upper
integration bound `a + b` lies in `[-1, 1]`. -/
theorem ab_coefficients_bounded (s : Surface) (z φ : ℝ) (hw : 0 ≤ s.omega)
    (hi1 : 0 ≤ s.inclination) (hi2 : s.inclination ≤ Real.pi / 2)
    (hz1 : -1 < z) (hz2 : z < 1) (hR : 0 < s.R z) :
    0 ≤ (s.ab z).1 ∧ ((s.ab z).1 ^ 2 + (s.ab z).2 ^ 2 ≤ 1) ∧
      (-1 ≤ (s.ab z).1 * Real.cos φ + (s.ab z).2 ∧
        (s.ab z).1 * Real.cos φ + (s.ab z).2 ≤ 1) ∧
      (-1 ≤ (s.ab z).1 + (s.ab z).2 ∧ (s.ab z).1 + (s.ab z).2 ≤ 1) := by
  have hsin : 0 ≤ Real.sin s.inclination :=
    Real.sin_nonneg_of_nonneg_of_le_pi hi1 (by linarith [Real.pi_pos])
  set d := s.f * s.Drz z with hd
  set q := Real.sqrt (1 + d ^ 2) with hq
  have hqpos : 0 < q := Real.sqrt_pos.mpr (by positivity)
  have hqsq : q ^ 2 = 1 + d ^ 2 := Real.sq_sqrt (by positivity)
  have hab1 : (s.ab z).1 = Real.sin s.inclination / q := rfl
  have hab2 : (s.ab z).2 = -(Real.cos s.inclination * d) / q := rfl
  have hpyth := Real.sin_sq_add_cos_sq s.inclination
  -- the central estimate: for |c| ≤ 1, |sin(i)·c - cos(i)·d| ≤ sqrt(1 + d²)
  have key : ∀ c : ℝ, -1 ≤ c → c ≤ 1 →
      -1 ≤ (Real.sin s.inclination * c - Real.cos s.inclination * d) / q ∧
        (Real.sin s.inclination * c - Real.cos s.inclination * d) / q ≤ 1 := by
    intro c hc1 hc2
    have hsq : (Real.sin s.inclination * c - Real.cos s.inclination * d) ^ 2 ≤ q ^ 2 := by
      rw [hqsq]
      nlinarith [sq_nonneg (Real.sin s.inclination * d + Real.cos s.inclination * c),
        mul_nonneg (by linarith : (0 : ℝ) ≤ 1 - c) (by linarith : (0 : ℝ) ≤ 1 + c),
        sq_nonneg d, sq_nonneg (Real.sin s.inclination), sq_nonneg (Real.cos s.inclination)]
    constructor
    · rw [le_div_iff hqpos]
      nlinarith [hsq, hqpos]
    · rw [div_le_one hqpos]
      nlinarith [hsq, hqpos]
  refine ⟨?_, ?_, ?_, ?_⟩
  · rw [hab1]
    exact div_nonneg hsin hqpos.le
  · rw [hab1, hab2, div_pow, div_pow, div_add_div_same, div_le_one (by positivity)]
    rw [hqsq]
    nlinarith [sq_nonneg d, sq_nonneg (Real.cos s.inclination), sq_nonneg (Real.sin s.inclination)]
  · have heq : (s.ab z).1 * Real.cos φ + (s.ab z).2 =
        (Real.sin s.inclination * Real.cos φ - Real.cos s.inclination * d) / q := by
      rw [hab1, hab2]; ring
    rw [heq]
    exact key (Real.cos φ) (Real.neg_one_le_cos φ) (Real.cos_le_one φ)
  · have heq : (s.ab z).1 + (s.ab z).2 =
        (Real.sin s.inclination * 1 - Real.cos s.inclination * d) / q := by
      rw [hab1, hab2]; ring
    rw [heq]
    exact key 1 (by norm_num) (by norm_num)

/-- Witness for C9 at `ω = 0`, `i = π/4`, `z = 0`, `φ = 0` (where the radius
is `1`). -/
theorem ab_coefficients_bounded_check :
    0 < (Surface.mk 0 (Real.pi / 4)).R 0 ∧
      0 ≤ ((Surface.mk 0 (Real.pi / 4)).ab 0).1 ∧
      ((Surface.mk 0 (Real.pi / 4)).ab 0).1 ^ 2 + ((Surface.mk 0 (Real.pi / 4)).ab 0).2 ^ 2 ≤ 1 := by
  have hR : 0 < (Surface.mk 0 (Real.pi / 4)).R 0 := by
    simp only [Surface.R, Surface.S, Surface.U, Surface.f]
    norm_num
  have h := ab_coefficients_bounded (Surface.mk 0 (Real.pi / 4)) 0 0 le_rfl
    (by positivity) (by linarith [Real.pi_pos]) (by norm_num) (by norm_num) hR
  exact ⟨hR, h.1, h.2.1⟩

namespace Fit

theorem exceptMap_isOk {α β : Type} (g : α → β) (e : Except Unit α) :
    (e.map g).isOk = e.isOk := by
  cases e <;> rfl

theorem pySlice_ne_nil {arr : List ℚ} {prev i : ℕ} (h : pySlice arr prev i ≠ []) :
    prev < i := by
  by_contra hc
  push_neg at hc
  apply h
  apply List.drop_eq_nil_of_le
  rw [List.length_take]
  exact le_trans (min_le_left _ _) hc

theorem pySlice_append_drop (arr : List ℚ) (prev i : ℕ) (h : prev ≤ i) :
    pySlice arr prev i ++ arr.drop i = arr.drop prev := by
  unfold pySlice
  rcases le_or_lt prev (arr.take i).length with hp | hp
  · conv_rhs => rw [← List.take_append_drop i arr]
    rw [List.drop_append_eq_append_drop, Nat.sub_eq_zero_of_le hp, List.drop_zero]
  · have hlen : arr.length < prev := by
      rw [List.length_take] at hp
      omega
    have h1 : (arr.take i).drop prev = [] := List.drop_eq_nil_of_le hp.le
    have h2 : arr.drop i = [] := List.drop_eq_nil_of_le (le_trans hlen.le h)
    have h3 : arr.drop prev = [] := List.drop_eq_nil_of_le hlen.le
    rw [h1, h2, h3]
    rfl

theorem npSplit_length (arr : List ℚ) (is : List ℕ) :
    ∀ prev, (npSplit arr is prev).length = is.length + 1 := by
  induction is with
  | nil => intro prev; rfl
  | cons i rest ih => intro prev; simp [npSplit, ih i]

theorem npSplit_flatten_all (arr : List ℚ) (is : List ℕ) :
    ∀ prev, [] ∉ npSplit arr is prev → (npSplit arr is prev).flatten = arr.drop prev := by
  induction is with
  | nil => intro prev _; simp [npSplit]
  | cons i rest ih =>
    intro prev h
    simp only [npSplit, List.mem_cons] at h
    push_neg at h
    simp only [npSplit, List.flatten_cons]
    rw [ih i h.2]
    exact pySlice_append_drop arr prev i (pySlice_ne_nil (fun hc => h.1 hc.symm)).le

theorem npSplit_flatten_tail (arr : List ℚ) (is : List ℕ)
    (h : [] ∉ (npSplit arr is 0).tail) : (npSplit arr is 0).flatten = arr := by
  cases is with
  | nil => simp [npSplit]
  | cons i rest =>
    simp only [npSplit, List.tail_cons] at h
    simp only [npSplit, List.flatten_cons]
    rw [npSplit_flatten_all arr rest i h]
    have hiden := pySlice_append_drop arr 0 i (Nat.zero_le i)
    rw [List.drop_zero] at hiden
    exact hiden

theorem npSplit_heads (arr : List ℚ) (is : List ℕ) :
    ∀ prev, [] ∉ npSplit arr is prev →
      (npSplit arr is prev).map List.head? =
        arr[prev]? :: is.map (fun i => arr[i]?) := by
  induction is with
  | nil => intro prev _; simp [npSplit, List.head?_drop]
  | cons i rest ih =>
    intro prev h
    simp only [npSplit, List.mem_cons] at h
    push_neg at h
    have hlt : prev < i := pySlice_ne_nil (fun hc => h.1 hc.symm)
    simp only [npSplit, List.map_cons]
    rw [ih i h.2]
    have hh : (pySlice arr prev i).head? = arr[prev]? := by
      unfold pySlice
      rw [List.head?_drop, List.getElem?_take, if_pos hlt]
    rw [hh]

theorem npSplit_tail_heads (arr : List ℚ) (is : List ℕ) (prev : ℕ)
    (h : [] ∉ (npSplit arr is prev).tail) :
    (npSplit arr is prev).tail.map List.head? = is.map (fun i => arr[i]?) := by
  cases is with
  | nil => rfl
  | cons i rest =>
    simp only [npSplit, List.tail_cons] at h ⊢
    rw [npSplit_heads arr rest i h]
    rfl

theorem origSegs_flatten (b : List ℚ) (h : [] ∉ (origSegs b).tail) :
    (origSegs b).flatten = mu_arr :=
  npSplit_flatten_tail mu_arr (b.map (ssLeft mu_arr)) h

theorem origSegs_tail_heads (b : List ℚ) (h : [] ∉ (origSegs b).tail) :
    (origSegs b).tail.map List.head? =
      b.map (fun q => mu_arr[ssLeft mu_arr q]?) := by
  have h2 := npSplit_tail_heads mu_arr (b.map (ssLeft mu_arr)) 0 h
  rw [List.map_map] at h2
  exact h2

theorem dupSegs_isOk_iff (segs : List (List ℚ)) :
    (dupSegs segs).isOk = false ↔ [] ∈ segs.tail := by
  induction segs with
  | nil => simp [dupSegs, Except.isOk, Except.toBool]
  | cons s rest ih =>
    cases rest with
    | nil => simp [dupSegs, Except.isOk, Except.toBool]
    | cons t rest2 =>
      simp only [List.tail_cons]
      cases ht : t.head? with
      | none =>
        have hte : t = [] := List.head?_eq_none_iff.mp ht
        simp [dupSegs, ht, Except.isOk, Except.toBool, hte]
      | some hd =>
        have htne : t ≠ [] := by intro hc; rw [hc] at ht; cases ht
        have hred : dupSegs (s :: t :: rest2) =
            (dupSegs (t :: rest2)).map (fun r => (s ++ [hd]) :: r) := by
          simp [dupSegs, ht]
        rw [hred, exceptMap_isOk, ih]
        simp only [List.tail_cons, List.mem_cons]
        constructor
        · exact fun hr => Or.inr hr
        · rintro (hc | hr)
          · exact absurd hc.symm htne
          · exact hr

theorem dupSegs_ok_spec (segs : List (List ℚ)) :
    ∀ sp, dupSegs segs = .ok sp →
      sp.length = segs.length ∧
      (sp.map List.length).sum = (segs.map List.length).sum + (segs.length - 1) ∧
      ∀ μ : ℚ, (sp.map (fun seg => seg.count μ)).sum =
        (segs.map (fun seg => seg.count μ)).sum +
          segs.tail.countP (fun seg => decide (seg.head? = some μ)) := by
  induction segs with
  | nil =>
    intro sp h
    cases h
    simp
  | cons s rest ih =>
    cases rest with
    | nil =>
      intro sp h
      cases h
      simp
    | cons t rest2 =>
      intro sp h
      cases ht : t.head? with
      | none => rw [show dupSegs (s :: t :: rest2) = .error () from by
          simp [dupSegs, ht]] at h; cases h
      | some hd =>
        have hred : dupSegs (s :: t :: rest2) =
            (dupSegs (t :: rest2)).map (fun r => (s ++ [hd]) :: r) := by
          simp [dupSegs, ht]
        rw [hred] at h
        cases hr : dupSegs (t :: rest2) with
        | error e => rw [hr] at h; cases h
        | ok r =>
          rw [hr] at h
          cases h
          obtain ⟨ih1, ih2, ih3⟩ := ih r hr
          refine ⟨?_, ?_, ?_⟩
          · simp only [List.length_cons, ih1]
          · have h1 : ((s ++ [hd]) :: r).map List.length =
                (s.length + 1) :: r.map List.length := by
              simp
            rw [h1, List.sum_cons, ih2]
            simp only [List.map_cons, List.sum_cons, List.length_cons]
            omega
          · intro μ
            simp only [List.map_cons, List.sum_cons, List.tail_cons,
              List.countP_cons, ih3 μ, ht]
            by_cases hc : hd = μ
            · subst hc
              simp [List.count_append, List.count_cons]
              omega
            · simp [List.count_append, List.count_cons, hc]
              omega

end Fit

namespace Fit

theorem ssLeft_mono (xs : List ℚ) {q1 q2 : ℚ} (h : q1 ≤ q2) :
    ssLeft xs q1 ≤ ssLeft xs q2 := by
  apply List.countP_mono_left
  intro μ _ hp
  rw [decide_eq_true_eq] at hp ⊢
  exact lt_of_lt_of_le hp h

theorem npSplit_empty_of_nonincreasing (arr : List ℚ) (is : List ℕ) :
    ∀ prev j, j + 1 < is.length → is.getD (j + 1) 0 ≤ is.getD j 0 →
      [] ∈ (npSplit arr is prev).tail := by
  induction is with
  | nil => intro prev j hj _; simp at hj
  | cons i rest ih =>
    intro prev j hj hle
    cases rest with
    | nil => simp at hj
    | cons i2 rest2 =>
      cases j with
      | zero =>
        simp only [List.getD_cons_succ, List.getD_cons_zero] at hle
        have hemp : pySlice arr i i2 = [] := by
          apply List.drop_eq_nil_of_le
          rw [List.length_take]
          exact le_trans (min_le_left _ _) hle
        simp only [npSplit, List.tail_cons]
        rw [hemp]
        exact List.mem_cons_self _ _
      | succ j2 =>
        have hrec := ih i j2 (by simpa using hj) (by simpa using hle)
        simp only [npSplit, List.tail_cons]
        exact List.mem_of_mem_tail hrec

theorem range_map_getD {α β : Type} (l : List α) (d : α) (f : α → β) :
    (List.range l.length).map (fun i => f (l.getD i d)) = l.map f := by
  apply List.ext_getElem
  · simp
  · intro n h1 h2
    simp only [List.getElem_map, List.getElem_range]
    rw [List.getD_eq_getElem l d (by simpa using h2)]

theorem insFold_length (subs : List ℕ) :
    ∀ acc : List ℚ × ℕ, acc.2 < acc.1.length →
      ((subs.foldl insStep acc).1).length = acc.1.length + subs.length := by
  induction subs with
  | nil => intro acc _; rfl
  | cons sub rest ih =>
    intro acc hacc
    have hind : acc.2 - sub < acc.1.length := lt_of_le_of_lt (Nat.sub_le _ _) hacc
    have hstep1 : (insStep acc sub).1.length = acc.1.length + 1 := by
      unfold insStep
      exact List.length_insertIdx _ _ hind.le
    have hstep2 : (insStep acc sub).2 < (insStep acc sub).1.length := by
      have h2 : (insStep acc sub).2 = acc.2 - sub := rfl
      rw [h2, hstep1]
      omega
    rw [List.foldl_cons, ih _ hstep2]
    simp only [List.length_cons]
    omega

end Fit

/-- C5 (amended): `set_muB` performs no explicit validation.  It fails — with
the uncaught `IndexError` of the boundary-duplication loop — exactly when some
mu split segment other than the first is empty; in particular it fails
whenever the interior boundary list has an adjacent non-increasing pair.  No
per-interval sample count is ever checked (an under-determined interval is
accepted silently; see the counterexample theorem). -/
theorem set_muB_failure_conditions (st : Fit.State) (b : List ℚ) :
    ((Fit.set_muB st b).isOk = false ↔ [] ∈ (Fit.origSegs b).tail) ∧
      ((∃ j, j + 1 < b.length ∧ b.getD (j + 1) 0 ≤ b.getD j 0) →
        (Fit.set_muB st b).isOk = false) := by
  have hiff : (Fit.set_muB st b).isOk = (Fit.dupSegs (Fit.origSegs b)).isOk :=
    Fit.exceptMap_isOk _ _
  constructor
  · rw [hiff]
    exact Fit.dupSegs_isOk_iff _
  · rintro ⟨j, hj, hle⟩
    rw [hiff, Fit.dupSegs_isOk_iff]
    have hmap : ∀ j2, j2 < b.length →
        (b.map (Fit.ssLeft Fit.mu_arr)).getD j2 0 = Fit.ssLeft Fit.mu_arr (b.getD j2 0) := by
      intro j2 hj2
      rw [List.getD_eq_getElem _ _ (by simpa using hj2), List.getElem_map,
        List.getD_eq_getElem _ _ hj2]
    apply Fit.npSplit_empty_of_nonincreasing Fit.mu_arr (b.map (Fit.ssLeft Fit.mu_arr)) 0 j
    · simpa using hj
    · rw [hmap j (by omega), hmap (j + 1) hj]
      exact Fit.ssLeft_mono _ hle

/-- Witness for the amended C5 on the non-increasing pair `[0.7, 0.3]`. -/
theorem set_muB_failure_conditions_check :
    (Fit.set_muB Fit.initState [mkRat 7 10, mkRat 3 10]).isOk = false :=
  (set_muB_failure_conditions Fit.initState [mkRat 7 10, mkRat 3 10]).2
    ⟨0, by decide, by decide⟩

/-- C6 (amended): across the split segments that generate the design-matrix
column blocks, each reference sample occurs once, plus once more for every
interior boundary whose *first sample at or above it* is that sample — i.e. a
sample is duplicated into the neighboring block exactly when it is the lowest
grid value at or above some interior boundary, which coincides with «falls
exactly on an interior boundary» only when every boundary lies on the grid. -/
theorem boundary_duplication_rule (st st2 : Fit.State) (b : List ℚ)
    (h : Fit.set_muB st b = .ok st2) (μ : ℚ) :
    (st2.mu_arr_split.map (fun seg => List.count μ seg)).sum =
      List.count μ Fit.mu_arr +
        b.countP (fun q => decide (Fit.mu_arr[Fit.ssLeft Fit.mu_arr q]? = some μ)) := by
  cases hd : Fit.dupSegs (Fit.origSegs b) with
  | error e =>
    unfold Fit.set_muB at h
    rw [hd] at h
    cases h
  | ok sp =>
    have hsp : st2.mu_arr_split = sp := by
      unfold Fit.set_muB at h
      rw [hd] at h
      cases h
      rfl
    have hok : (Fit.dupSegs (Fit.origSegs b)).isOk = true := by
      rw [hd]
      rfl
    have hnotail : [] ∉ (Fit.origSegs b).tail := by
      intro hc
      rw [(Fit.dupSegs_isOk_iff _).mpr hc] at hok
      cases hok
    obtain ⟨-, -, hcount⟩ := Fit.dupSegs_ok_spec _ sp hd
    rw [hsp, hcount μ]
    have hflat : List.count μ (Fit.origSegs b).flatten = List.count μ Fit.mu_arr := by
      rw [Fit.origSegs_flatten b hnotail]
    rw [List.count_flatten] at hflat
    rw [hflat]
    congr 1
    calc (Fit.origSegs b).tail.countP (fun seg => decide (seg.head? = some μ))
        = ((Fit.origSegs b).tail.map List.head?).countP
            (fun o => decide (o = some μ)) := by
          rw [List.countP_map]
          rfl
      _ = (b.map (fun q => Fit.mu_arr[Fit.ssLeft Fit.mu_arr q]?)).countP
            (fun o => decide (o = some μ)) := by
          rw [Fit.origSegs_tail_heads b hnotail]
      _ = b.countP (fun q => decide (Fit.mu_arr[Fit.ssLeft Fit.mu_arr q]? = some μ)) := by
          rw [List.countP_map]
          rfl

/-- Witness for the amended C6 with boundaries `[0.45]` and sample `0.5`:
the total multiplicity of `0.5` across the segments is `1 + 1 = 2`. -/
theorem boundary_duplication_rule_check :
    (Fit.set_muB Fit.initState [mkRat 9 20]).toOption.map
      (fun st => (st.mu_arr_split.map (fun seg => List.count (mkRat 1 2) seg)).sum) =
      some 2 := by
  cases hh : Fit.set_muB Fit.initState [mkRat 9 20] with
  | error e =>
    cases e
    have hok2 : (Fit.set_muB Fit.initState [mkRat 9 20]).isOk = true := by decide
    rw [hh] at hok2
    cases hok2
  | ok st =>
    have hr := boundary_duplication_rule Fit.initState st [mkRat 9 20] hh (mkRat 1 2)
    simp only [Except.toOption, Option.map, hr]
    decide

/-- C10: for every successful configuration over the 17-point reference grid
and any 17-length intensity vector, the duplicated intensity vector built by
`Fit.__init__` has length `17 + (m - 1)`, which equals the number of rows of
the design matrix `x` built by `set_muB`, so the least-squares system is
dimensionally consistent — whether or not any reference mu value coincides
with a boundary. -/
theorem lstsq_dimensions (b : List ℚ) (st2 : Fit.State)
    (h : Fit.set_muB Fit.initState b = .ok st2) (I_arr : List ℚ)
    (hI : I_arr.length = 17) :
    st2.x.length = 17 + (st2.m - 1) ∧
      (Fit.dupIntensity st2 I_arr).length = st2.x.length := by
  cases hd : Fit.dupSegs (Fit.origSegs b) with
  | error e =>
    unfold Fit.set_muB at h
    rw [hd] at h
    cases h
  | ok sp =>
    have hfields : st2.mu_arr_split = sp ∧ st2.m = b.length + 1 ∧
        st2.x = ((List.range (b.length + 1)).map (fun i =>
          (sp.getD i []).map (fun μ =>
            ((Fit.initState.F ++ (List.range (b.length + 1)).map
              (fun i2 => Fit.Fentry (b.length + 1) i2)).getD i []).map
              (fun g => g μ)))).flatten := by
      unfold Fit.set_muB at h
      rw [hd] at h
      cases h
      exact ⟨rfl, rfl, rfl⟩
    obtain ⟨hsp, hm, hx⟩ := hfields
    have hok : (Fit.dupSegs (Fit.origSegs b)).isOk = true := by
      rw [hd]
      rfl
    have hnotail : [] ∉ (Fit.origSegs b).tail := by
      intro hc
      rw [(Fit.dupSegs_isOk_iff _).mpr hc] at hok
      cases hok
    obtain ⟨hlen, hsum, -⟩ := Fit.dupSegs_ok_spec _ sp hd
    have horiglen : (Fit.origSegs b).length = b.length + 1 := by
      unfold Fit.origSegs
      rw [Fit.npSplit_length]
      simp
    have hsplen : sp.length = b.length + 1 := by
      rw [hlen, horiglen]
    have horigsum : ((Fit.origSegs b).map List.length).sum = 17 := by
      rw [← List.length_flatten, Fit.origSegs_flatten b hnotail]
      rfl
    have hxlen : st2.x.length = 17 + b.length := by
      rw [hx, List.length_flatten, List.map_map]
      have hcomp : (List.length ∘ fun i => (sp.getD i []).map (fun μ =>
          ((Fit.initState.F ++ (List.range (b.length + 1)).map
            (fun i2 => Fit.Fentry (b.length + 1) i2)).getD i []).map
            (fun g => g μ))) = fun i => (sp.getD i []).length := by
        funext i
        simp [List.length_map]
      rw [hcomp, ← hsplen, Fit.range_map_getD sp [] List.length, hsum, horigsum,
        horiglen]
      omega
    constructor
    · rw [hxlen, hm]
      omega
    · unfold Fit.dupIntensity
      rw [Fit.insFold_length _ _ (by rw [hI]; omega), hxlen, hI]
      simp only [List.length_map, List.length_reverse, List.length_range, hm]
      omega

/-- Witness for C10 with boundaries `[0.5]` and a constant 17-point intensity
vector: both the duplicated vector and the design matrix have 18 rows. -/
theorem lstsq_dimensions_check :
    (List.replicate 17 (0 : ℚ)).length = 17 ∧
      (Fit.set_muB Fit.initState [mkRat 1 2]).toOption.map
        (fun st => ((Fit.dupIntensity st (List.replicate 17 0)).length,
          st.x.length, st.m)) = some (18, 18, 2) := by
  refine ⟨by simp, ?_⟩
  cases hh : Fit.set_muB Fit.initState [mkRat 1 2] with
  | error e =>
    cases e
    have hok2 : (Fit.set_muB Fit.initState [mkRat 1 2]).isOk = true := by decide
    rw [hh] at hok2
    cases hok2
  | ok st =>
    obtain ⟨h1, h2⟩ := lstsq_dimensions [mkRat 1 2] st hh (List.replicate 17 0) (by simp)
    have hm : st.m = 2 := by
      have hdm : (Fit.set_muB Fit.initState [mkRat 1 2]).toOption.map
          (fun st3 => st3.m) = some 2 := by decide
      rw [hh] at hdm
      simpa [Except.toOption] using hdm
    simp only [Except.toOption, Option.map]
    rw [h2, h1, hm]

/-- C8: `Surface.transit_locations`.  For inclination exactly `π/2` the result
is, sightline by sightline, `u = u_proj` exactly when `|Z(u_proj)| ≤ z1` and
`|y_proj| ≤ R(Z(u_proj))`, and NaN (`none`) otherwise.  For any other
inclination it is, sightline by sightline, `transitPoint`; whenever that
returns a value `u`, the retained real-root multiset of the degree-6
polynomial has exactly two elements (counted with multiplicity), `u` is a
root of the polynomial, lies in `[-1/f, 1/f]`, and is the larger of the
retained roots; in every other case the result is `none`. -/
theorem transit_locations_spec (s : Surface) (up_arr y_arr : List ℝ)
    (hlen : up_arr.length = y_arr.length) :
    (s.inclination = Real.pi / 2 →
      s.transit_locations up_arr y_arr = List.zipWith
        (fun up y => if |s.Z up| ≤ s.z1 ∧ |y| ≤ s.R (s.Z up) then some up else none)
        up_arr y_arr) ∧
    (s.inclination ≠ Real.pi / 2 →
      s.transit_locations up_arr y_arr =
        List.zipWith (fun up y => Surface.transitPoint s up y) up_arr y_arr ∧
      ∀ up y u, Surface.transitPoint s up y = some u →
        Multiset.card (Surface.transitRoots s up y) = 2 ∧
        (Surface.polyOfCoeffs (Surface.p6coeffs s up y)).eval ((u : ℝ) : ℂ) = 0 ∧
        -(1 / s.f) ≤ u ∧ u ≤ 1 / s.f ∧
        ∀ r ∈ Surface.transitRoots s up y, r ≤ u) := by
  constructor
  · intro h90
    simp only [Surface.transit_locations]
    rw [if_pos h90]
    apply List.ext_getElem
    · simp only [List.length_map, List.length_range, List.length_zipWith, ← hlen,
        min_self]
    · intro n h1 h2
      simp only [List.length_map, List.length_range] at h1
      have hn : n < up_arr.length := h1
      have hny : n < y_arr.length := by rw [← hlen]; exact hn
      have hzg : (up_arr.map s.Z).getD n 0 = s.Z up_arr[n] := by
        rw [List.getD_eq_getElem _ _ (by simpa using hn), List.getElem_map]
      have hyg : y_arr.getD n 0 = y_arr[n] := List.getD_eq_getElem _ _ hny
      have hug : up_arr.getD n 0 = up_arr[n] := List.getD_eq_getElem _ _ hn
      simp only [List.getElem_map, List.getElem_range, List.getElem_zipWith]
      by_cases hc : |s.Z up_arr[n]| ≤ s.z1 ∧ |y_arr[n]| ≤ s.R (s.Z up_arr[n])
      · rw [if_pos hc, hug, if_pos]
        apply List.mem_filter.mpr
        refine ⟨List.mem_filter.mpr ⟨List.mem_range.mpr hn, ?_⟩, ?_⟩
        · rw [hzg]
          exact decide_eq_true hc.1
        · rw [hzg, hyg]
          exact decide_eq_true hc.2
      · rw [if_neg hc, if_neg]
        intro hmem
        apply hc
        have hm2 := List.mem_filter.mp hmem
        have hm1 := List.mem_filter.mp hm2.1
        constructor
        · have := of_decide_eq_true hm1.2
          rwa [hzg] at this
        · have := of_decide_eq_true hm2.2
          rwa [hzg, hyg] at this
  · intro hne
    constructor
    · simp only [Surface.transit_locations]
      rw [if_neg hne]
    · intro up y u hu
      unfold Surface.transitPoint at hu
      by_cases hcard : Multiset.card (Surface.transitRoots s up y) = 2
      · rw [if_pos hcard] at hu
        have humax : (Surface.transitRoots s up y).toList.maximum.unbot' 0 = u :=
          Option.some.inj hu
        have hlen2 : (Surface.transitRoots s up y).toList.length = 2 := by
          rw [Multiset.length_toList, hcard]
        cases hmax : (Surface.transitRoots s up y).toList.maximum with
        | bot =>
          have hnil : (Surface.transitRoots s up y).toList = [] :=
            List.maximum_eq_none.mp hmax
          rw [hnil] at hlen2
          cases hlen2
        | coe mx =>
          have humx : u = mx := by
            rw [hmax] at humax
            simpa [WithBot.unbot'_coe] using humax.symm
          have hmem : mx ∈ (Surface.transitRoots s up y).toList :=
            List.maximum_mem hmax
          have hmemm : u ∈ Surface.transitRoots s up y := by
            rw [humx]
            exact Multiset.mem_toList.mp hmem
          unfold Surface.transitRoots at hmemm
          obtain ⟨r, hr, hre⟩ := Multiset.mem_map.mp hmemm
          have hrf := Multiset.mem_filter.mp hr
          have hrroot := hrf.1
          obtain ⟨him, hlo, hhi⟩ := hrf.2
          have hrc : r = ((u : ℝ) : ℂ) := by
            apply Complex.ext
            · rw [Complex.ofReal_re, hre]
            · rw [Complex.ofReal_im, him]
          refine ⟨hcard, ?_, ?_, ?_, ?_⟩
          · have hz := Polynomial.isRoot_of_mem_roots hrroot
            rw [hrc] at hz
            exact hz
          · rw [← hre]; exact hlo
          · rw [← hre]; exact hhi
          · intro r2 hr2
            have hr2l : r2 ∈ (Surface.transitRoots s up y).toList :=
              Multiset.mem_toList.mpr hr2
            have := List.le_maximum_of_mem hr2l hmax
            rw [humx]
            exact this
      · rw [if_neg hcard] at hu
        cases hu

/-- Witness for C8 at `ω = 0`, inclination `π/2`, one sightline
`(u', y) = (1/2, 0)`: the direct radius check succeeds and the sightline's
own `u' = 1/2` is returned. -/
theorem transit_locations_spec_check :
    (Surface.mk 0 (Real.pi / 2)).transit_locations [1 / 2] [0] = [some (1 / 2)] := by
  have h := (transit_locations_spec (Surface.mk 0 (Real.pi / 2)) [1 / 2] [0] rfl).1 rfl
  rw [h]
  have hf : (Surface.mk 0 (Real.pi / 2)).f = 1 := by
    simp [Surface.f]
  have hz : (Surface.mk 0 (Real.pi / 2)).Z (1 / 2) = 1 / 2 := by
    rw [Surface.Z, hf, mul_one]
  have hz1 : (Surface.mk 0 (Real.pi / 2)).z1 = 1 := by
    simp [Surface.z1, Surface.Z1, Surface.sini, Real.sin_pi_div_two]
  have hcond : |(Surface.mk 0 (Real.pi / 2)).Z (1 / 2)| ≤ (Surface.mk 0 (Real.pi / 2)).z1 ∧
      |(0 : ℝ)| ≤ (Surface.mk 0 (Real.pi / 2)).R ((Surface.mk 0 (Real.pi / 2)).Z (1 / 2)) := by
    constructor
    · rw [hz, hz1]
      rw [abs_le]
      constructor <;> norm_num
    · rw [abs_zero]
      exact Real.sqrt_nonneg _
  simp only [List.zipWith_cons_cons, List.zipWith_nil_right]
  rw [if_pos hcond]

namespace Fit

/-- Chain-rule derivative of `sin (n t)`. -/
theorem hasDerivAt_sin_nmul (n φ : ℝ) :
    HasDerivAt (fun t : ℝ => Real.sin (n * t)) (Real.cos (n * φ) * n) φ := by
  have h1 : HasDerivAt (fun t : ℝ => n * t) (n * 1) φ := (hasDerivAt_id φ).const_mul n
  have h2 := (Real.hasDerivAt_sin (n * φ)).comp φ h1
  simpa using h2

/-- Chain-rule derivative of `cos (n t)`. -/
theorem hasDerivAt_cos_nmul (n φ : ℝ) :
    HasDerivAt (fun t : ℝ => Real.cos (n * t)) (-(Real.sin (n * φ)) * n) φ := by
  have h1 : HasDerivAt (fun t : ℝ => n * t) (n * 1) φ := (hasDerivAt_id φ).const_mul n
  have h2 := (Real.hasDerivAt_cos (n * φ)).comp φ h1
  simpa using h2

/-- The `k`-th entry of the source's antiderivative table `intgrt`
differentiates, with respect to `phi`, to `mu(phi)^(k+1)` — the `k`-th basis
function `x^k` multiplied by `x`, composed with `mu(phi) = a cos(phi) + b` —
not to the basis function itself. -/
theorem intgrtF_hasDerivAt (a b φ : ℝ) (k : Fin 5) :
    HasDerivAt (fun t => intgrtF a b t k)
      ((a * Real.cos φ + b) ^ ((k : ℕ) + 1)) φ := by
  fin_cases k
  · show HasDerivAt (fun t => intgrtF a b t 0) ((a * Real.cos φ + b) ^ 1) φ
    have h : HasDerivAt (fun t : ℝ => b * t + a * Real.sin t)
        (b * 1 + a * Real.cos φ) φ :=
      ((hasDerivAt_id φ).const_mul b).add ((Real.hasDerivAt_sin φ).const_mul a)
    convert h using 1
    ring
  · show HasDerivAt (fun t => intgrtF a b t 1) ((a * Real.cos φ + b) ^ 2) φ
    have h : HasDerivAt (fun t : ℝ =>
        (a ^ 2 / 2 + b ^ 2) * t + (2 * a * b + (a ^ 2 * Real.cos t) / 2) * Real.sin t)
        ((a ^ 2 / 2 + b ^ 2) * 1 +
          ((0 + a ^ 2 * -(Real.sin φ) / 2) * Real.sin φ +
           (2 * a * b + (a ^ 2 * Real.cos φ) / 2) * Real.cos φ)) φ :=
      ((hasDerivAt_id φ).const_mul (a ^ 2 / 2 + b ^ 2)).add
        (((hasDerivAt_const φ (2 * a * b)).add
            (((Real.hasDerivAt_cos φ).const_mul (a ^ 2)).div_const 2)).mul
          (Real.hasDerivAt_sin φ))
    convert h using 1
    linear_combination (a ^ 2 / 2) * (Real.sin_sq_add_cos_sq φ)
  · show HasDerivAt (fun t => intgrtF a b t 2) ((a * Real.cos φ + b) ^ 3) φ
    have hcoef : HasDerivAt (fun t : ℝ => (5 * a ^ 3) / 6 + 3 * a * b ^ 2 +
        (3 * a ^ 2 * b * Real.cos t) / 2 + (a ^ 3 * Real.cos (2 * t)) / 6)
        (0 + 3 * a ^ 2 * b * -(Real.sin φ) / 2 +
          a ^ 3 * (-(Real.sin (2 * φ)) * 2) / 6) φ :=
      ((hasDerivAt_const φ ((5 * a ^ 3) / 6 + 3 * a * b ^ 2)).add
          (((Real.hasDerivAt_cos φ).const_mul (3 * a ^ 2 * b)).div_const 2)).add
        (((hasDerivAt_cos_nmul 2 φ).const_mul (a ^ 3)).div_const 6)
    have h := ((hasDerivAt_id φ).const_mul ((3 * a ^ 2 * b) / 2 + b ^ 3)).add
      (hcoef.mul (Real.hasDerivAt_sin φ))
    convert h using 1
    rw [Real.sin_two_mul, Real.cos_two_mul]
    linear_combination ((3 * a ^ 2 * b) / 2 + (2 * a ^ 3 / 3) * Real.cos φ) *
      (Real.sin_sq_add_cos_sq φ)
  · show HasDerivAt (fun t => intgrtF a b t 3) ((a * Real.cos φ + b) ^ 4) φ
    have h1 := ((hasDerivAt_id φ).const_mul
      ((3 * a ^ 4) / 8 + 3 * a ^ 2 * b ^ 2 + b ^ 4)).add
      ((Real.hasDerivAt_sin φ).const_mul (3 * a ^ 3 * b + 4 * a * b ^ 3))
    have h2 := h1.add ((hasDerivAt_sin_nmul 2 φ).const_mul
      (a ^ 4 / 4 + (3 * a ^ 2 * b ^ 2) / 2))
    have h3 := h2.add (((hasDerivAt_sin_nmul 3 φ).const_mul (a ^ 3 * b)).div_const 3)
    have h4 := h3.add (((hasDerivAt_sin_nmul 4 φ).const_mul (a ^ 4)).div_const 32)
    convert h4 using 1
    rw [show (4 : ℝ) * φ = 2 * (2 * φ) by ring, Real.cos_two_mul (2 * φ),
      Real.cos_two_mul, Real.cos_three_mul]
    ring
  · show HasDerivAt (fun t => intgrtF a b t 4) ((a * Real.cos φ + b) ^ 5) φ
    have h1 := ((hasDerivAt_id φ).const_mul
      ((15 * a ^ 4 * b) / 8 + 5 * a ^ 2 * b ^ 3 + b ^ 5)).add
      ((Real.hasDerivAt_sin φ).const_mul
        ((5 * a ^ 5) / 8 + (15 * a ^ 3 * b ^ 2) / 2 + 5 * a * b ^ 4))
    have h2 := h1.add ((hasDerivAt_sin_nmul 2 φ).const_mul
      ((5 * a ^ 4 * b) / 4 + (5 * a ^ 2 * b ^ 3) / 2))
    have h3 := h2.add (((hasDerivAt_sin_nmul 3 φ).const_mul (5 * a ^ 5)).div_const 48)
    have h4 := h3.add
      (((hasDerivAt_sin_nmul 3 φ).const_mul (5 * a ^ 3 * b ^ 2)).div_const 6)
    have h5 := h4.add
      (((hasDerivAt_sin_nmul 4 φ).const_mul (5 * a ^ 4 * b)).div_const 32)
    have h6 := h5.add (((hasDerivAt_sin_nmul 5 φ).const_mul (a ^ 5)).div_const 80)
    convert h6 using 1
    rw [show (5 : ℝ) * φ = 2 * φ + 3 * φ by ring, Real.cos_add,
      show (4 : ℝ) * φ = 2 * (2 * φ) by ring, Real.cos_two_mul (2 * φ),
      Real.sin_two_mul, Real.cos_two_mul, Real.cos_three_mul, Real.sin_three_mul]
    linear_combination (Real.cos φ * a ^ 5 *
      (3 / 8 - (Real.sin φ ^ 2 + 1 - Real.cos φ ^ 2) / 2)) * (Real.sin_sq_add_cos_sq φ)

/-- The fundamental theorem of calculus for the antiderivative table: the
difference `intgrt(y) - intgrt(x)` that the interval loop accumulates equals
the definite integral of `mu^(k+1)` over `[x, y]`. -/
theorem intgrtF_integral (a b x y : ℝ) (k : Fin 5) :
    (∫ t in x..y, (a * Real.cos t + b) ^ ((k : ℕ) + 1)) =
      intgrtF a b y k - intgrtF a b x k := by
  apply intervalIntegral.integral_eq_sub_of_hasDerivAt
  · intro t _
    exact intgrtF_hasDerivAt a b t k
  · apply Continuous.intervalIntegrable
    exact ((continuous_const.mul Real.continuous_cos).add continuous_const).pow _

end Fit

/-- C1 (amended): `Fit.integrate` raises an uncaught exception for every
nonempty batch, so it returns entries for no input at all (in particular no
`2π` constant-basis entry for `a = 0`); and the antiderivative table from
which the interval loop accumulates its per-column values implements, in its
`k`-th slot, the exact phi-antiderivative of `(a cos(phi) + b)^(k+1)` — twice
the definite integral of the `k`-th basis function *times mu*, composed with
`mu(phi)`, not of the basis function alone. -/
theorem fit_integrate_amended :
    (∀ (muB : List ℝ) (belowZ1 : List Bool) (a b : List ℝ), a ≠ [] →
      Fit.integrate muB belowZ1 a b = .error ()) ∧
    (∀ (a b φ : ℝ) (k : Fin 5),
      HasDerivAt (fun t => Fit.intgrtF a b t k)
        ((a * Real.cos φ + b) ^ ((k : ℕ) + 1)) φ) ∧
    (∀ (a b x y : ℝ) (k : Fin 5),
      (∫ t in x..y, (a * Real.cos t + b) ^ ((k : ℕ) + 1)) =
        Fit.intgrtF a b y k - Fit.intgrtF a b x k) := by
  refine ⟨?_, Fit.intgrtF_hasDerivAt, Fit.intgrtF_integral⟩
  intro muB bz a b ha
  unfold Fit.integrate
  cases a with
  | nil => exact absurd rfl ha
  | cons a0 arest => rfl

/-- Witness for the amended C1: a nonempty batch raises, and the table's
third slot integrates `mu³` over `[0, π]` for `a = 1`, `b = 0`. -/
theorem fit_integrate_amended_check :
    Fit.integrate [0, 1 / 2] [true] [1] [0] = .error () ∧
      (∫ t in (0 : ℝ)..Real.pi,
          (1 * Real.cos t + 0) ^ (((2 : Fin 5) : ℕ) + 1)) =
        Fit.intgrtF 1 0 Real.pi 2 - Fit.intgrtF 1 0 0 2 :=
  ⟨fit_integrate_amended.1 [0, 1 / 2] [true] [1] [0] (by simp),
   fit_integrate_amended.2.2 1 0 0 Real.pi 2⟩
